import Mathlib

/-!
Verification of the blog-RSS aggregator (`scripts/generate-rss.ts`).

This file gives a shallow embedding of the aggregator's core pipeline:
the text normalizer, the date resolver, the four source parsers over an
explicit DOM tree, the pagination and single-page crawlers with the page
fetcher passed in as a function, the deduplicator, and the aggregate sort.
Theorems at the end settle the specification's claims about these
components.

Conventions of the embedding:
- JavaScript strings are Lean `String`s; all primitive string operations
  (`trim`, `split`, `includes`, regular-expression tests used by the
  source) are re-implemented below on `List Char` so that they compute.
- The DOM produced by the HTML library is modelled as a tree of `Node`s;
  the parsers consume the tree exactly as the source walks the selections
  (`article a[href^="/blog/"]`, `find('p')`, `.text()`, `.attr(...)`).
- The injected page fetcher has type `String → Option String`: `none`
  models a thrown fetch error, which the source catches.
- Calendar instants are `Int` timestamps; `new Date(s)` is modelled by
  `jsDateParse`, with `none` standing for an invalid date (`NaN`).
-/

/-! ## Character and string utilities (models of the JS string primitives) -/

/-- Whitespace test used for the JS `\s` class and `String.prototype.trim`. -/
def isWsChar (c : Char) : Bool :=
  c = ' ' || c = '\t' || c = '\n' || c = '\r'

/-- Model of `replace(/\s+/g, ' ')`: collapse every maximal whitespace run
to a single space.  The flag records whether we are inside a run whose
replacement space has already been emitted. -/
def squeezeGo : List Char → Bool → List Char
  | [], _ => []
  | c :: cs, inRun =>
    if isWsChar c then
      if inRun then squeezeGo cs true else ' ' :: squeezeGo cs true
    else c :: squeezeGo cs false

/-- Remove the maximal whitespace suffix (the tail half of `trim`). -/
def dropTrailingWs : List Char → List Char
  | [] => []
  | c :: cs =>
    let r := dropTrailingWs cs
    if r.isEmpty && isWsChar c then [] else c :: r

/-- Model of `String.prototype.trim`. -/
def trimStr (s : String) : String :=
  ⟨dropTrailingWs (s.data.dropWhile isWsChar)⟩

/-- Model of `normalizeText = text.replace(/\s+/g, ' ').trim()`
(generate-rss.ts line 38), the Text Normalizer. -/
def normalizeText (s : String) : String :=
  ⟨dropTrailingWs ((squeezeGo s.data false).dropWhile isWsChar)⟩

/-- `pat` is a leading segment of `s` (model of `String.prototype.startsWith`). -/
def charsStart : List Char → List Char → Bool
  | _, [] => true
  | [], _ :: _ => false
  | c :: cs, p :: ps => c = p && charsStart cs ps

def strStarts (s pat : String) : Bool :=
  charsStart s.data pat.data

/-- `pat` occurs contiguously in `s` (model of `String.prototype.includes`). -/
def charsContain : List Char → List Char → Bool
  | [], pat => pat.isEmpty
  | c :: cs, pat => charsStart (c :: cs) pat || charsContain cs pat

def strIncludes (s pat : String) : Bool :=
  charsContain s.data pat.data

/-- Model of `text.split('\n')` (keeps empty segments, as in JS). -/
def splitNlGo : List Char → List Char → List String
  | [], cur => [⟨cur.reverse⟩]
  | c :: cs, cur =>
    if c = '\n' then ⟨cur.reverse⟩ :: splitNlGo cs [] else splitNlGo cs (c :: cur)

def splitNl (s : String) : List String :=
  splitNlGo s.data []

/-- Model of `text.split('\n').map(l => l.trim()).filter(Boolean)`, the
line decomposition shared by the heuristic parsers and the fallback parser. -/
def linesOf (s : String) : List String :=
  ((splitNl s).map trimStr).filter (fun l => l ≠ "")

/-- Decimal digit characters for rendering page numbers. -/
def digitChar : Nat → Char
  | 0 => '0'
  | 1 => '1'
  | 2 => '2'
  | 3 => '3'
  | 4 => '4'
  | 5 => '5'
  | 6 => '6'
  | 7 => '7'
  | 8 => '8'
  | _ => '9'

def natToCharsGo : Nat → Nat → List Char
  | 0, _ => []
  | fuel + 1, n =>
    if n < 10 then [digitChar n]
    else natToCharsGo fuel (n / 10) ++ [digitChar (n % 10)]

/-- Decimal rendering of a page number (model of JS template `${page}`). -/
def natToStr (n : Nat) : String :=
  ⟨natToCharsGo (n + 1) n⟩

/-! ## The post record -/

/-- One extracted blog entry (`interface BlogPost`, generate-rss.ts lines 5-12). -/
structure BlogPost where
  title : String
  link : String
  description : String
  category : String
  date : String
  source : String
  deriving DecidableEq

/-! ## Deduplicator -/

/-- Seen-set filtering loop of `dedupeByLink` (generate-rss.ts lines 441-448):
a post is kept iff its link has not been seen, and kept posts add their link
to the seen set. -/
def dedupeAux (seen : List String) : List BlogPost → List BlogPost
  | [] => []
  | p :: ps =>
    if p.link ∈ seen then dedupeAux seen ps
    else p :: dedupeAux (p.link :: seen) ps

/-- `dedupeByLink` (generate-rss.ts lines 441-448). -/
def dedupeByLink (posts : List BlogPost) : List BlogPost :=
  dedupeAux [] posts

theorem dedupeAux_sublist (l : List BlogPost) :
    ∀ seen, (dedupeAux seen l).Sublist l := by
  induction l with
  | nil => intro seen; simp [dedupeAux]
  | cons p ps ih =>
    intro seen
    by_cases h : p.link ∈ seen
    · simp only [dedupeAux, if_pos h]
      exact (ih seen).cons p
    · simp only [dedupeAux, if_neg h]
      exact (ih (p.link :: seen)).cons₂ p

theorem dedupeAux_first (l : List BlogPost) :
    ∀ seen p, p ∈ dedupeAux seen l →
      p.link ∉ seen ∧ l.find? (fun q => q.link == p.link) = some p := by
  induction l with
  | nil => intro seen p hp; simp [dedupeAux] at hp
  | cons q qs ih =>
    intro seen p hp
    by_cases h : q.link ∈ seen
    · simp only [dedupeAux, if_pos h] at hp
      obtain ⟨hns, hfind⟩ := ih seen p hp
      refine ⟨hns, ?_⟩
      have hne : (q.link == p.link) = false := by
        simp only [beq_eq_false_iff_ne, ne_eq]
        intro he; exact hns (he ▸ h)
      simp [List.find?, hne, hfind]
    · simp only [dedupeAux, if_neg h] at hp
      rcases List.mem_cons.mp hp with hp | hp
      · subst hp
        exact ⟨h, by simp [List.find?]⟩
      · obtain ⟨hns, hfind⟩ := ih (q.link :: seen) p hp
        have hne : (q.link == p.link) = false := by
          simp only [beq_eq_false_iff_ne, ne_eq]
          intro he
          exact hns (by simp [he])
        refine ⟨fun hc => hns (by simp [hc]), ?_⟩
        simp [List.find?, hne, hfind]

theorem dedupeAux_nodup (l : List BlogPost) :
    ∀ seen, ((dedupeAux seen l).map (fun p => p.link)).Nodup := by
  induction l with
  | nil => intro seen; simp [dedupeAux]
  | cons q qs ih =>
    intro seen
    by_cases h : q.link ∈ seen
    · simp only [dedupeAux, if_pos h]; exact ih seen
    · simp only [dedupeAux, if_neg h, List.map_cons, List.nodup_cons]
      refine ⟨?_, ih (q.link :: seen)⟩
      intro hc
      obtain ⟨p, hp, he⟩ := List.mem_map.mp hc
      exact (dedupeAux_first qs (q.link :: seen) p hp).1 (by simp [he])

theorem dedupeAux_complete (l : List BlogPost) :
    ∀ seen p, p ∈ l → p.link ∉ seen →
      ∃ q ∈ dedupeAux seen l, q.link = p.link := by
  induction l with
  | nil => intro seen p hp; simp at hp
  | cons q qs ih =>
    intro seen p hp hns
    by_cases h : q.link ∈ seen
    · simp only [dedupeAux, if_pos h]
      rcases List.mem_cons.mp hp with hp | hp
      · exact absurd (hp ▸ h) hns
      · exact ih seen p hp hns
    · simp only [dedupeAux, if_neg h]
      rcases List.mem_cons.mp hp with hp | hp
      · exact ⟨q, by simp, by rw [hp]⟩
      · by_cases hq : p.link = q.link
        · exact ⟨q, by simp, hq.symm⟩
        · obtain ⟨r, hr, he⟩ := ih (q.link :: seen) p hp (by simp [hns, hq])
          exact ⟨r, by simp [hr], he⟩

/-! ## Date Resolver -/

/-- Numeric value of a digit run. -/
def digitsVal (l : List Char) : Nat :=
  l.foldl (fun acc c => acc * 10 + (c.toNat - 48)) 0

/-- Injective encoding of a calendar date as a millisecond-style instant. -/
def encodeInstant (y mo d : Nat) : Int :=
  ((y : Int) * 372 + ((mo : Int) - 1) * 31 + ((d : Int) - 1)) * 86400000

/-- English month names, long and three-letter, with their month numbers. -/
def monthTable : List (String × Nat) :=
  [("january", 1), ("february", 2), ("march", 3), ("april", 4), ("may", 5),
   ("june", 6), ("july", 7), ("august", 8), ("september", 9), ("october", 10),
   ("november", 11), ("december", 12),
   ("jan", 1), ("feb", 2), ("mar", 3), ("apr", 4), ("jun", 6), ("jul", 7),
   ("aug", 8), ("sep", 9), ("oct", 10), ("nov", 11), ("dec", 12)]

def monthFromName (s : String) : Option Nat :=
  (monthTable.find? (fun e => e.1 == s)).map (fun e => e.2)

/-- ISO `YYYY-MM-DD` date (the `dateTime` attribute format). -/
def parseIsoChars (cs : List Char) : Option Int :=
  let y := cs.takeWhile Char.isDigit
  let r1 := cs.dropWhile Char.isDigit
  if y.length = 4 then
    match r1 with
    | '-' :: r2 =>
      let m := r2.takeWhile Char.isDigit
      let r3 := r2.dropWhile Char.isDigit
      if m.length = 2 then
        match r3 with
        | '-' :: r4 =>
          let d := r4.takeWhile Char.isDigit
          let r5 := r4.dropWhile Char.isDigit
          if d.length = 2 ∧ r5 = [] ∧ 1 ≤ digitsVal m ∧ digitsVal m ≤ 12 ∧
              1 ≤ digitsVal d ∧ digitsVal d ≤ 31 then
            some (encodeInstant (digitsVal y) (digitsVal m) (digitsVal d))
          else none
        | _ => none
      else none
    | _ => none
  else none

/-- `Month D, YYYY` / `Mon D, YYYY` English date. -/
def parseMonthChars (cs : List Char) : Option Int :=
  let letters := cs.takeWhile Char.isAlpha
  let r1 := cs.dropWhile Char.isAlpha
  match monthFromName ⟨letters.map Char.toLower⟩ with
  | none => none
  | some mo =>
    let ws1 := r1.takeWhile isWsChar
    let r2 := r1.dropWhile isWsChar
    let ds := r2.takeWhile Char.isDigit
    let r3 := r2.dropWhile Char.isDigit
    let r4 := match r3 with
      | ',' :: t => t
      | other => other
    let r5 := r4.dropWhile isWsChar
    let ys := r5.takeWhile Char.isDigit
    let r6 := r5.dropWhile Char.isDigit
    if ws1 ≠ [] ∧ (ds.length = 1 ∨ ds.length = 2) ∧ 1 ≤ digitsVal ds ∧
        digitsVal ds ≤ 31 ∧ ys.length = 4 ∧ r6 = [] then
      some (encodeInstant (digitsVal ys) mo (digitsVal ds))
    else none

/-- Modelled from the spec: the JavaScript `new Date(string)` parser, the
platform primitive `parseDate` calls (it is not code of this repository).
Per the spec it accepts ISO 8601 dates and `"Mon DD, YYYY"`-style English
month-name dates (long or three-letter month, any letter case); any other
string — including `""` and `"not a date"` — yields an invalid date,
modelled as `none`. -/
def jsDateParse (s : String) : Option Int :=
  match parseIsoChars s.data with
  | some t => some t
  | none => parseMonthChars s.data

/-- The Date Resolver `parseDate` (generate-rss.ts lines 33-36): resolve a
raw date string via `new Date`, falling back to the current instant `now`
when the result is invalid. -/
def parseDate (now : Int) (s : String) : Int :=
  match jsDateParse s with
  | some t => t
  | none => now

/-! ## Aggregator sort

`dedupeByLink(allPosts).sort((a, b) => parseDate(b.date).getTime() -
parseDate(a.date).getTime())` (generate-rss.ts lines 553-556).  JS
`Array.prototype.sort` is a stable sort, and with this comparator it
orders by resolved date descending; a stable insertion sort is the unique
such reordering and embeds it. -/

def insertDescBy (k : BlogPost → Int) (a : BlogPost) : List BlogPost → List BlogPost
  | [] => [a]
  | q :: qs => if k a < k q then q :: insertDescBy k a qs else a :: q :: qs

def sortDescBy (k : BlogPost → Int) : List BlogPost → List BlogPost
  | [] => []
  | a :: as => insertDescBy k a (sortDescBy k as)

/-- `sortedPosts` (generate-rss.ts lines 553-556): the aggregate list,
deduplicated by link and sorted by resolved date, newest first.  `now` is
the instant at which unparseable dates are resolved. -/
def sortedPosts (now : Int) (posts : List BlogPost) : List BlogPost :=
  sortDescBy (fun p => parseDate now p.date) (dedupeByLink posts)

theorem filter_insertDescBy (k : BlogPost → Int) (d : Int) (a : BlogPost) :
    ∀ l, (insertDescBy k a l).filter (fun p => k p == d) =
      if k a = d then a :: l.filter (fun p => k p == d)
      else l.filter (fun p => k p == d) := by
  intro l
  induction l with
  | nil =>
    by_cases h : k a = d <;>
      simp [insertDescBy, List.filter_cons, List.filter_nil, h]
  | cons q qs ih =>
    by_cases hlt : k a < k q
    · simp only [insertDescBy, if_pos hlt, List.filter_cons]
      by_cases h : k a = d
      · have hq : (k q == d) = false := by
          simp only [beq_eq_false_iff_ne, ne_eq]
          omega
        simp [h, hq, ih]
      · simp [h, ih]
    · simp only [insertDescBy, if_neg hlt, List.filter_cons]
      by_cases h : k a = d <;> simp [h]

theorem chain_insertDescBy (k : BlogPost → Int) (a : BlogPost) :
    ∀ l, List.Chain' (fun x y => k y ≤ k x) l →
      List.Chain' (fun x y => k y ≤ k x) (insertDescBy k a l) := by
  intro l
  induction l with
  | nil => intro _; simp [insertDescBy]
  | cons q qs ih =>
    intro h
    have hq := (List.chain'_cons'.mp h).1
    have hqs := (List.chain'_cons'.mp h).2
    by_cases hlt : k a < k q
    · simp only [insertDescBy, if_pos hlt]
      refine List.chain'_cons'.mpr ⟨?_, ih hqs⟩
      intro b hb
      cases qs with
      | nil =>
        simp [insertDescBy] at hb
        subst hb
        exact le_of_lt hlt
      | cons r rs =>
        by_cases hlt2 : k a < k r
        · simp only [insertDescBy, if_pos hlt2, List.head?_cons,
            Option.mem_def, Option.some.injEq] at hb
          subst hb
          exact hq r (by simp)
        · simp only [insertDescBy, if_neg hlt2, List.head?_cons,
            Option.mem_def, Option.some.injEq] at hb
          subst hb
          exact le_of_lt hlt
    · simp only [insertDescBy, if_neg hlt]
      refine List.chain'_cons'.mpr ⟨?_, h⟩
      intro b hb
      simp only [List.head?_cons, Option.mem_def, Option.some.injEq] at hb
      subst hb
      exact le_of_not_lt hlt

theorem chain_sortDescBy (k : BlogPost → Int) :
    ∀ l, List.Chain' (fun x y => k y ≤ k x) (sortDescBy k l) := by
  intro l
  induction l with
  | nil => simp [sortDescBy]
  | cons a as ih => exact chain_insertDescBy k a _ ih

theorem filter_sortDescBy (k : BlogPost → Int) (d : Int) :
    ∀ l, (sortDescBy k l).filter (fun p => k p == d) =
      l.filter (fun p => k p == d) := by
  intro l
  induction l with
  | nil => simp [sortDescBy]
  | cons a as ih =>
    simp only [sortDescBy, filter_insertDescBy, ih, List.filter_cons]
    by_cases h : k a = d <;> simp [h]

/-! ## Crawlers

The injected fetcher `fetchFn : String → Option String` models the
`fetchPage` capability; `none` stands for a thrown fetch error, which the
source catches (`try { ... } catch (e) { break; }`). -/

/-- Page URL construction of the pagination loop: page 1 uses the bare
listing URL, later pages append `/page/<n>` (generate-rss.ts line 132). -/
def pageUrl (baseUrl : String) (page : Nat) : String :=
  if page = 1 then baseUrl else baseUrl ++ "/page/" ++ natToStr page

/-- Result of a crawl: the accumulated posts together with the page URLs
that were fetched, in order of request. -/
structure CrawlResult where
  posts : List BlogPost
  fetched : List String
  deriving DecidableEq

/-- One spin of the `while (page <= maxPages)` loop of `fetchCursorPosts`
(generate-rss.ts lines 131-148), with `fuel = maxPages - page + 1`
remaining iterations.  Per iteration: fetch (a `none` result is the caught
fetch error, ending the crawl), parse (zero posts ends the crawl without
adding), accumulate, and continue only when the fetched HTML textually
contains the next page fragment `/blog/page/<page+1>`. -/
def crawlFrom (fetchFn : String → Option String)
    (parse : String → String → List BlogPost) (baseUrl siteUrl : String) :
    Nat → Nat → List BlogPost → List String → CrawlResult
  | _, 0, acc, fetched => ⟨acc, fetched⟩
  | page, fuel + 1, acc, fetched =>
    match fetchFn (pageUrl baseUrl page) with
    | none => ⟨acc, fetched ++ [pageUrl baseUrl page]⟩
    | some html =>
      if (parse html siteUrl).isEmpty then ⟨acc, fetched ++ [pageUrl baseUrl page]⟩
      else if strIncludes html ("/blog/page/" ++ natToStr (page + 1)) then
        crawlFrom fetchFn parse baseUrl siteUrl (page + 1) fuel
          (acc ++ parse html siteUrl) (fetched ++ [pageUrl baseUrl page])
      else ⟨acc ++ parse html siteUrl, fetched ++ [pageUrl baseUrl page]⟩

/-- The Pagination Crawler `fetchCursorPosts` (generate-rss.ts lines
121-151): crawl from page 1 under the `maxPages = 100` ceiling. -/
def fetchCursorPosts (fetchFn : String → Option String)
    (parse : String → String → List BlogPost) (baseUrl siteUrl : String) :
    CrawlResult :=
  crawlFrom fetchFn parse baseUrl siteUrl 1 100 [] []

/-- The Single-Page Crawler shared by `fetchClaudePosts`,
`fetchAnthropicEngineeringPosts` and `fetchAnthropicResearchPosts`
(generate-rss.ts lines 215-228, 284-297, 357-370): fetch the listing URL
once and parse it; a caught fetch error yields the empty list (the
`console.error` call is operator logging, outside the model). -/
def fetchSinglePage (fetchFn : String → Option String)
    (parse : String → String → List BlogPost) (baseUrl siteUrl : String) :
    List BlogPost :=
  match fetchFn baseUrl with
  | some html => parse html siteUrl
  | none => []

/-! ## DOM model

The tree produced by `cheerio.load`: element nodes carry tag name,
attributes and class list; text nodes carry their text.  Selections are
walks over this tree in document order. -/

inductive Node where
  | text : String → Node
  | elem : String → List (String × String) → List String → List Node → Node

def Node.tagOf : Node → String
  | .text _ => ""
  | .elem t _ _ _ => t

def Node.classesOf : Node → List String
  | .text _ => []
  | .elem _ _ cls _ => cls

/-- Attribute lookup, `$el.attr(name)`. -/
def attrOf (n : Node) (name : String) : Option String :=
  match n with
  | .text _ => none
  | .elem _ attrs _ _ => (attrs.find? (fun e => e.1 == name)).map (fun e => e.2)

mutual

/-- All element nodes of a subtree, self included, in document order. -/
def elemsIn : Node → List Node
  | .text _ => []
  | .elem t a c ch => Node.elem t a c ch :: elemsInList ch

def elemsInList : List Node → List Node
  | [] => []
  | n :: ns => elemsIn n ++ elemsInList ns

end

mutual

/-- Concatenated text content of a subtree, `$el.text()`. -/
def textOf : Node → String
  | .text s => s
  | .elem _ _ _ ch => textOfList ch

def textOfList : List Node → String
  | [] => ""
  | n :: ns => textOf n ++ textOfList ns

end

mutual

/-- Anchor elements that are strict descendants of an `article` element,
in document order (the element part of `$('article a[...]')`). -/
def articleDescAnchors : Bool → Node → List Node
  | _, .text _ => []
  | inArt, .elem t a c ch =>
    (if inArt && t == "a" then [Node.elem t a c ch] else []) ++
      articleDescAnchorsList (inArt || t == "article") ch

def articleDescAnchorsList : Bool → List Node → List Node
  | _, [] => []
  | b, n :: ns => articleDescAnchors b n ++ articleDescAnchorsList b ns

end

/-- Element descendants of `el` with the given tag, `$el.find(tag)`. -/
def findTag (tag : String) : Node → List Node
  | .text _ => []
  | .elem _ _ _ ch => (elemsInList ch).filter (fun m => m.tagOf == tag)

/-- `$el.find('span.capitalize')`. -/
def findSpanCapitalize : Node → List Node
  | .text _ => []
  | .elem _ _ _ ch =>
    (elemsInList ch).filter
      (fun m => m.tagOf == "span" && m.classesOf.contains "capitalize")

/-- `.text()` of a possibly-empty selection. -/
def textOfOpt : Option Node → String
  | some n => textOf n
  | none => ""

/-! ## Cursor parser (card-based, with text-splitting fallback) -/

/-- `categoryText.replace(/\s*·\s*$/, '')`: strip one trailing `·`
separator together with the whitespace around it. -/
def stripTrailingSep (s : String) : String :=
  match s.data.reverse.dropWhile isWsChar with
  | '·' :: rest => ⟨(rest.dropWhile isWsChar).reverse⟩
  | _ => s

def isWordChar (c : Char) : Bool :=
  c.isAlphanum || c = '_'

/-- `metaLine.match(/^(\w+)\s*·\s*(.+)$/)` of the fallback parser
(generate-rss.ts lines 102-105), yielding `(category, dateStr)` with the
defaults `('post', '')` when the pattern does not match. -/
def parseMetaLine (s : String) : String × String :=
  let w := s.data.takeWhile isWordChar
  let rest := (s.data.dropWhile isWordChar).dropWhile isWsChar
  if w.isEmpty then ("post", "")
  else
    match rest with
    | '·' :: rest2 =>
      let dateCs := rest2.dropWhile isWsChar
      if dateCs.isEmpty then ("post", "") else (⟨w⟩, ⟨dateCs⟩)
    | _ => ("post", "")

/-- `lines.slice(1, -1).join(' ')`. -/
def joinSpace : List String → String
  | [] => ""
  | [x] => x
  | x :: y :: xs => x ++ " " ++ joinSpace (y :: xs)

/-- Body of the primary card parser loop (generate-rss.ts lines 50-78):
`none` when the anchor is skipped (navigation href) or the candidate is
dropped by `addPost` (empty title or link). -/
def mkCursorPost (siteUrl : String) (el : Node) : Option BlogPost :=
  let href := (attrOf el "href").getD ""
  if href = "" ∨ href = "/blog" ∨ strStarts href "/blog/topic" = true ∨
      strStarts href "/blog/page" = true then none
  else
    let ps := findTag "p" el
    let title := normalizeText (textOfOpt ps.head?)
    let description := normalizeText (textOfOpt (ps.get? 1))
    let categoryText := normalizeText (textOfOpt (findSpanCapitalize el).head?)
    let category :=
      if stripTrailingSep categoryText = "" then "post" else stripTrailingSep categoryText
    let dateStr :=
      match (findTag "time" el).head? with
      | none => normalizeText ""
      | some tEl =>
        match attrOf tEl "dateTime" with
        | some v => if v = "" then normalizeText (textOf tEl) else v
        | none => normalizeText (textOf tEl)
    if title = "" ∨ siteUrl ++ href = "" then none
    else some ⟨title, siteUrl ++ href, description, category, dateStr, "Cursor"⟩

/-- Body of the fallback text-splitting parser loop (generate-rss.ts
lines 82-115). -/
def mkCursorFallbackPost (siteUrl : String) (el : Node) : Option BlogPost :=
  let href := (attrOf el "href").getD ""
  if href = "" ∨ href = "/blog" ∨ strStarts href "/blog/topic" = true ∨
      strStarts href "/blog/page" = true then none
  else
    let lines := linesOf (textOf el)
    if lines.length < 2 then none
    else
      let title := lines.headD ""
      let description := if lines.length > 2 then joinSpace (lines.drop 1).dropLast else ""
      let meta := parseMetaLine (lines.getLastD "")
      if title = "" ∨ siteUrl ++ href = "" then none
      else some ⟨title, siteUrl ++ href, description, meta.1, meta.2, "Cursor"⟩

/-- The anchors selected by `$('article a[href^="/blog/"]')`. -/
def cursorPrimaryAnchors (doc : List Node) : List Node :=
  (articleDescAnchorsList false doc).filter
    (fun n => match attrOf n "href" with
      | some h => strStarts h "/blog/"
      | none => false)

/-- The anchors selected by `$('a[href^="/blog/"]')` (fallback pass). -/
def cursorFallbackAnchors (doc : List Node) : List Node :=
  (elemsInList doc).filter
    (fun n => n.tagOf == "a" &&
      (match attrOf n "href" with
        | some h => strStarts h "/blog/"
        | none => false))

/-- Posts of the primary card pass of `parseCursorBlog`. -/
def cursorPrimaryPosts (doc : List Node) (siteUrl : String) : List BlogPost :=
  (cursorPrimaryAnchors doc).filterMap (mkCursorPost siteUrl)

/-- `parseCursorBlog` (generate-rss.ts lines 41-119): the card-based
primary pass, with the text-splitting fallback pass used only when the
primary pass yields no posts. -/
def parseCursorBlog (doc : List Node) (siteUrl : String) : List BlogPost :=
  if (cursorPrimaryPosts doc siteUrl).isEmpty then
    (cursorFallbackAnchors doc).filterMap (mkCursorFallbackPost siteUrl)
  else cursorPrimaryPosts doc siteUrl

/-! ## Heuristic line-classification parsers -/

/-- Per-anchor classification state: the mutable `title`, `dateStr` and
`category` variables of the heuristic parsers. -/
structure ScanSt where
  title : String
  dateStr : String
  category : String
  deriving DecidableEq

def longMonths : List String :=
  ["january", "february", "march", "april", "may", "june", "july",
   "august", "september", "october", "november", "december"]

def shortMonths : List String :=
  ["jan", "feb", "mar", "apr", "may", "jun", "jul", "aug", "sep", "oct",
   "nov", "dec"]

/-- The tail `\s+\d{1,2},?\s+\d{4}$` of the date patterns. -/
def dateTailOk (cs : List Char) : Bool :=
  let ws1 := cs.takeWhile isWsChar
  let r1 := cs.dropWhile isWsChar
  let ds := r1.takeWhile Char.isDigit
  let r2 := r1.dropWhile Char.isDigit
  let r3 := match r2 with
    | ',' :: t => t
    | other => other
  let ws2 := r3.takeWhile isWsChar
  let r4 := r3.dropWhile isWsChar
  let ys := r4.takeWhile Char.isDigit
  let r5 := r4.dropWhile Char.isDigit
  !ws1.isEmpty && (ds.length = 1 || ds.length = 2) && !ws2.isEmpty &&
    ys.length = 4 && r5.isEmpty

/-- `datePattern.test(line) || shortDatePattern.test(line)`: a full or
three-letter English month name (case-insensitive), day, optional comma,
and four-digit year, spanning the whole line (generate-rss.ts lines
186-187, 257-258, 326-327). -/
def isDateLine (s : String) : Bool :=
  (longMonths ++ shortMonths).any
    (fun m => charsStart (s.data.map Char.toLower) m.data &&
      dateTailOk (s.data.drop m.data.length))

def claudeCategories : List String :=
  ["Agents", "Coding", "Enterprise AI", "Product announcements"]

def researchCategories : List String :=
  ["Interpretability", "Alignment", "Societal Impacts", "Policy",
   "Economic Research", "Announcements"]

/-- One line of the Claude Blog classification loop (generate-rss.ts
lines 189-197): date check first, then the title slot (first line longer
than 10 characters that is not a "Read more" call-to-action), then the
category allow-list. -/
def claudeStepLine (st : ScanSt) (line : String) : ScanSt :=
  if isDateLine line = true then { st with dateStr := line }
  else if st.title = "" ∧ line.data.length > 10 ∧ strIncludes line "Read more" = false then
    { st with title := line }
  else if line ∈ claudeCategories then { st with category := line }
  else st

def claudeScan (lines : List String) : ScanSt :=
  lines.foldl claudeStepLine ⟨"", "", "Blog"⟩

/-- One line of the Anthropic Research classification loop
(generate-rss.ts lines 331-339): date check, then the category
allow-list, then the title slot (first line longer than 15 characters). -/
def researchStepLine (st : ScanSt) (line : String) : ScanSt :=
  if isDateLine line = true then { st with dateStr := line }
  else if line ∈ researchCategories then { st with category := line }
  else if st.title = "" ∧ line.data.length > 15 then { st with title := line }
  else st

def researchScan (lines : List String) : ScanSt :=
  lines.foldl researchStepLine ⟨"", "", "Research"⟩

/-- One line of the Anthropic Engineering classification loop
(generate-rss.ts lines 260-266): date check, then the title slot. -/
def engStepLine (st : ScanSt) (line : String) : ScanSt :=
  if isDateLine line = true then { st with dateStr := line }
  else if st.title = "" ∧ line.data.length > 15 then { st with title := line }
  else st

def engScan (lines : List String) : ScanSt :=
  lines.foldl engStepLine ⟨"", "", "Engineering"⟩

/-- Body of the Claude Blog anchor loop (generate-rss.ts lines 161-210),
threading `(posts, seen)`. -/
def claudeAnchorStep (siteUrl : String) (acc : List BlogPost × List String)
    (el : Node) : List BlogPost × List String :=
  let href := (attrOf el "href").getD ""
  if href = "/blog" ∨ href = "/blog/" ∨ strIncludes href "/blog/" = false then acc
  else
    let fullUrl := if strStarts href "http" = true then href else siteUrl ++ href
    if fullUrl ∈ acc.2 then acc
    else
      let lines := linesOf (textOf el)
      if lines = [] then acc
      else
        let st := claudeScan lines
        if st.title = "" then acc
        else
          (acc.1 ++ [⟨normalizeText st.title, fullUrl, "", st.category, st.dateStr,
             "Claude Blog"⟩], acc.2 ++ [fullUrl])

/-- The anchors selected by `$('a[href*="/blog/"]')`. -/
def claudeAnchors (doc : List Node) : List Node :=
  (elemsInList doc).filter
    (fun n => n.tagOf == "a" &&
      (match attrOf n "href" with
        | some h => strIncludes h "/blog/"
        | none => false))

/-- `parseClaudeBlog` (generate-rss.ts lines 154-213). -/
def parseClaudeBlog (doc : List Node) (siteUrl : String) : List BlogPost :=
  ((claudeAnchors doc).foldl (claudeAnchorStep siteUrl) ([], [])).1

/-- All anchors, the `$('a')` selection of the Anthropic parsers. -/
def allAnchors (doc : List Node) : List Node :=
  (elemsInList doc).filter (fun n => n.tagOf == "a")

/-- Body of the Anthropic Engineering anchor loop (generate-rss.ts
lines 237-279). -/
def engAnchorStep (siteUrl : String) (acc : List BlogPost × List String)
    (el : Node) : List BlogPost × List String :=
  let href := (attrOf el "href").getD ""
  if strIncludes href "/engineering/" = false ∧ strIncludes href "/news/" = false then acc
  else if href = "/engineering" ∨ href = "/engineering/" then acc
  else
    let fullUrl := if strStarts href "http" = true then href else siteUrl ++ href
    if fullUrl ∈ acc.2 then acc
    else
      let lines := linesOf (textOf el)
      if lines = [] then acc
      else
        let st := engScan lines
        if st.title = "" then acc
        else
          (acc.1 ++ [⟨normalizeText st.title, fullUrl, "", st.category, st.dateStr,
             "Anthropic Engineering"⟩], acc.2 ++ [fullUrl])

/-- `parseAnthropicEngineering` (generate-rss.ts lines 231-282). -/
def parseAnthropicEngineering (doc : List Node) (siteUrl : String) : List BlogPost :=
  ((allAnchors doc).foldl (engAnchorStep siteUrl) ([], [])).1

/-- Body of the Anthropic Research anchor loop (generate-rss.ts
lines 306-352). -/
def researchAnchorStep (siteUrl : String) (acc : List BlogPost × List String)
    (el : Node) : List BlogPost × List String :=
  let href := (attrOf el "href").getD ""
  if strIncludes href "/research/" = false ∧ strIncludes href "/news/" = false then acc
  else if href = "/research" ∨ href = "/research/" then acc
  else
    let fullUrl := if strStarts href "http" = true then href else siteUrl ++ href
    if fullUrl ∈ acc.2 then acc
    else
      let lines := linesOf (textOf el)
      if lines = [] then acc
      else
        let st := researchScan lines
        if st.title = "" then acc
        else
          (acc.1 ++ [⟨normalizeText st.title, fullUrl, "", st.category, st.dateStr,
             "Anthropic Research"⟩], acc.2 ++ [fullUrl])

/-- `parseAnthropicResearch` (generate-rss.ts lines 300-355). -/
def parseAnthropicResearch (doc : List Node) (siteUrl : String) : List BlogPost :=
  ((allAnchors doc).foldl (researchAnchorStep siteUrl) ([], [])).1

/-! ## Whitespace-normal form

`chunksOk`/`isNormalizedStr` state what "whitespace-normalized" means
structurally: no leading or trailing whitespace, and every whitespace
character is a single space followed by a non-whitespace character.
`midOk` additionally tolerates one trailing space, the shape `squeezeGo`
guarantees before trimming. -/

def chunksOk : List Char → Bool
  | [] => true
  | [c] => !(isWsChar c)
  | c :: c2 :: cs => (!(isWsChar c) || (c == ' ' && !(isWsChar c2))) && chunksOk (c2 :: cs)

def isNormalizedStr (s : String) : Bool :=
  match s.data with
  | [] => true
  | c :: cs => !(isWsChar c) && chunksOk (c :: cs)

def midOk : List Char → Bool
  | [] => true
  | [c] => !(isWsChar c) || c == ' '
  | c :: c2 :: cs => (!(isWsChar c) || (c == ' ' && !(isWsChar c2))) && midOk (c2 :: cs)

theorem strData_append (a b : String) : (a ++ b).data = a.data ++ b.data := by
  cases a
  cases b
  rfl

theorem strEq_empty_iff (s : String) : s = "" ↔ s.data = [] := by
  constructor
  · intro h
    rw [h]
  · intro h
    cases s with
    | mk d =>
      simp only at h
      rw [h]

theorem strApp_ne_empty (a b : String) (hb : b ≠ "") : a ++ b ≠ "" := by
  intro h
  rw [strEq_empty_iff, strData_append, List.append_eq_nil] at h
  exact hb ((strEq_empty_iff b).mpr h.2)

theorem strApp_assoc (a b c : String) : a ++ b ++ c = a ++ (b ++ c) := by
  cases a with
  | mk x =>
    cases b with
    | mk y =>
      cases c with
      | mk z =>
        show String.mk ((x ++ y) ++ z) = String.mk (x ++ (y ++ z))
        rw [List.append_assoc]

theorem squeezeGo_true_head (l : List Char) :
    squeezeGo l true = [] ∨
      ∃ c cs, squeezeGo l true = c :: cs ∧ isWsChar c = false := by
  induction l with
  | nil => left; rfl
  | cons c cs ih =>
    by_cases h : isWsChar c = true
    · simpa [squeezeGo, h] using ih
    · right
      refine ⟨c, squeezeGo cs false, ?_, by simpa using h⟩
      simp [squeezeGo, h]

theorem midOk_cons (c : Char) (r : List Char) (hc : isWsChar c = false)
    (hr : midOk r = true) : midOk (c :: r) = true := by
  cases r with
  | nil => simp [midOk, hc]
  | cons d ds =>
    simp only [midOk, Bool.and_eq_true, Bool.or_eq_true]
    exact ⟨Or.inl (by simp [hc]), hr⟩

theorem midOk_tail (c : Char) (cs : List Char) (h : midOk (c :: cs) = true) :
    midOk cs = true := by
  cases cs with
  | nil => rfl
  | cons d ds =>
    simp only [midOk, Bool.and_eq_true] at h
    exact h.2

theorem midOk_squeezeGo (l : List Char) : ∀ b, midOk (squeezeGo l b) = true := by
  induction l with
  | nil => intro b; rfl
  | cons c cs ih =>
    intro b
    by_cases h : isWsChar c = true
    · cases b with
      | true => simpa [squeezeGo, h] using ih true
      | false =>
        simp only [squeezeGo, h, if_true, Bool.false_eq_true, if_false]
        rcases squeezeGo_true_head cs with he | ⟨d, ds, he, hd⟩
        · rw [he]; rfl
        · rw [he]
          have h2 : midOk (d :: ds) = true := he ▸ ih true
          simp only [midOk, Bool.and_eq_true, Bool.or_eq_true]
          exact ⟨Or.inr (by simp [hd]), h2⟩
    · simp only [squeezeGo, h, Bool.false_eq_true, if_false]
      exact midOk_cons c _ (by simpa using h) (ih false)

theorem midOk_dropWhile (l : List Char) (h : midOk l = true) :
    midOk (l.dropWhile isWsChar) = true := by
  induction l with
  | nil => exact h
  | cons c cs ih =>
    by_cases hc : isWsChar c = true
    · rw [List.dropWhile_cons, if_pos hc]
      exact ih (midOk_tail c cs h)
    · rw [List.dropWhile_cons, if_neg (by simpa using hc)]
      exact h

theorem dropTrailingWs_shape (c : Char) (cs : List Char) :
    dropTrailingWs (c :: cs) = [] ∨
      dropTrailingWs (c :: cs) = c :: dropTrailingWs cs := by
  simp only [dropTrailingWs]
  split_ifs with h
  · left; rfl
  · right; rfl

theorem chunksOk_dropTrailingWs (l : List Char) (h : midOk l = true) :
    chunksOk (dropTrailingWs l) = true := by
  induction l with
  | nil => rfl
  | cons c cs ih =>
    have hcs := midOk_tail c cs h
    by_cases hb : ((dropTrailingWs cs).isEmpty && isWsChar c) = true
    · simp only [dropTrailingWs, if_pos hb]
      rfl
    · simp only [dropTrailingWs, if_neg hb]
      cases hr : dropTrailingWs cs with
      | nil =>
        have hc : isWsChar c = false := by
          cases hcw : isWsChar c
          · rfl
          · exact absurd (by simp [hr, hcw]) hb
        simp [chunksOk, hc]
      | cons d ds =>
        have h2 : chunksOk (d :: ds) = true := hr ▸ ih hcs
        by_cases hc : isWsChar c = true
        · cases cs with
          | nil => simp [dropTrailingWs] at hr
          | cons e es =>
            have hpair : (!(isWsChar c) || (c == ' ' && !(isWsChar e))) = true ∧
                midOk (e :: es) = true := by
              simpa [midOk, Bool.and_eq_true] using h
            have hce : (c == ' ' && !(isWsChar e)) = true := by
              rcases Bool.or_eq_true _ _ |>.mp hpair.1 with h' | h'
              · rw [hc] at h'; cases h'
              · exact h'
            rcases dropTrailingWs_shape e es with hsh | hsh
            · rw [hsh] at hr; cases hr
            · rw [hsh] at hr
              injection hr with hde hrest
              simp only [chunksOk, Bool.and_eq_true, Bool.or_eq_true]
              refine ⟨Or.inr ?_, h2⟩
              rw [← hde]
              exact (Bool.and_eq_true _ _).mp hce
        · simp only [chunksOk, Bool.and_eq_true, Bool.or_eq_true]
          exact ⟨Or.inl (by simpa using hc), h2⟩

theorem dropWhile_ws_head (l : List Char) :
    l.dropWhile isWsChar = [] ∨
      ∃ c cs, l.dropWhile isWsChar = c :: cs ∧ isWsChar c = false := by
  induction l with
  | nil => left; rfl
  | cons c cs ih =>
    by_cases h : isWsChar c = true
    · rw [List.dropWhile_cons, if_pos h]
      exact ih
    · right
      exact ⟨c, cs, by rw [List.dropWhile_cons, if_neg (by simpa using h)],
        by simpa using h⟩

theorem isNormalizedStr_normalizeText (s : String) :
    isNormalizedStr (normalizeText s) = true := by
  have hmid : midOk ((squeezeGo s.data false).dropWhile isWsChar) = true :=
    midOk_dropWhile _ (midOk_squeezeGo s.data false)
  have hchunks := chunksOk_dropTrailingWs _ hmid
  rcases dropWhile_ws_head (squeezeGo s.data false) with he | ⟨c, cs, he, hc⟩
  · simp [normalizeText, isNormalizedStr, he, dropTrailingWs]
  · rcases dropTrailingWs_shape c cs with hsh | hsh
    · simp [normalizeText, isNormalizedStr, he, hsh]
    · rw [he] at hchunks
      simp only [normalizeText, isNormalizedStr, he, hsh]
      simp [hsh] at hchunks
      simp [hc, hchunks]

theorem normalizeText_ne_empty (s : String) (c : Char) (cs : List Char)
    (hdata : s.data = c :: cs) (hc : isWsChar c = false) :
    normalizeText s ≠ "" := by
  intro h
  rw [strEq_empty_iff] at h
  simp only [normalizeText] at h
  rw [hdata] at h
  simp only [squeezeGo, hc, Bool.false_eq_true, if_false] at h
  rw [List.dropWhile_cons, if_neg (by simp [hc])] at h
  simp only [dropTrailingWs, hc, Bool.and_false, Bool.false_eq_true, if_false] at h
  cases h

theorem trimStr_shape (raw : String) :
    trimStr raw = "" ∨
      ∃ c cs, (trimStr raw).data = c :: cs ∧ isWsChar c = false := by
  rcases dropWhile_ws_head raw.data with he | ⟨c, cs, he, hc⟩
  · left
    rw [strEq_empty_iff]
    show dropTrailingWs (raw.data.dropWhile isWsChar) = []
    rw [he]
    rfl
  · rcases dropTrailingWs_shape c cs with hsh | hsh
    · left
      rw [strEq_empty_iff]
      show dropTrailingWs (raw.data.dropWhile isWsChar) = []
      rw [he, hsh]
    · right
      refine ⟨c, dropTrailingWs cs, ?_, hc⟩
      show dropTrailingWs (raw.data.dropWhile isWsChar) = _
      rw [he, hsh]

theorem mem_linesOf (t line : String) (h : line ∈ linesOf t) :
    line ≠ "" ∧ normalizeText line ≠ "" := by
  simp only [linesOf, List.mem_filter, List.mem_map, decide_eq_true_eq] at h
  obtain ⟨⟨raw, _, heq⟩, hne⟩ := h
  subst heq
  refine ⟨hne, ?_⟩
  rcases trimStr_shape raw with he | ⟨c, cs, hd, hc⟩
  · exact absurd he hne
  · exact normalizeText_ne_empty _ c cs hd hc

/-! ## Properties of the line-classification scans -/

theorem foldl_title_cases (step : ScanSt → String → ScanSt)
    (hstep : ∀ st l, (step st l).title = st.title ∨ (step st l).title = l) :
    ∀ (lines : List String) (st : ScanSt),
      (lines.foldl step st).title = st.title ∨ (lines.foldl step st).title ∈ lines := by
  intro lines
  induction lines with
  | nil => intro st; left; rfl
  | cons l ls ih =>
    intro st
    rw [List.foldl_cons]
    rcases ih (step st l) with h | h
    · rcases hstep st l with h2 | h2
      · left; rw [h, h2]
      · right; rw [h, h2]; exact List.mem_cons_self l ls
    · right; exact List.mem_cons_of_mem l h

theorem claudeStepLine_title (st : ScanSt) (l : String) :
    (claudeStepLine st l).title = st.title ∨ (claudeStepLine st l).title = l := by
  simp only [claudeStepLine]
  split_ifs <;> simp

theorem researchStepLine_title (st : ScanSt) (l : String) :
    (researchStepLine st l).title = st.title ∨ (researchStepLine st l).title = l := by
  simp only [researchStepLine]
  split_ifs <;> simp

theorem engStepLine_title (st : ScanSt) (l : String) :
    (engStepLine st l).title = st.title ∨ (engStepLine st l).title = l := by
  simp only [engStepLine]
  split_ifs <;> simp

/-- The title slot, once filled, is never overwritten (Research loop). -/
theorem researchFold_title_keep (lines : List String) :
    ∀ st : ScanSt, st.title ≠ "" →
      (lines.foldl researchStepLine st).title = st.title := by
  induction lines with
  | nil => intro st _; rfl
  | cons l ls ih =>
    intro st h
    rw [List.foldl_cons]
    have hst : (researchStepLine st l).title = st.title := by
      simp only [researchStepLine]
      split_ifs with h1 h2 h3
      · rfl
      · rfl
      · exact absurd h3.1 h
      · rfl
    rw [ih _ (by rw [hst]; exact h), hst]

theorem claudeFold_title_keep (lines : List String) :
    ∀ st : ScanSt, st.title ≠ "" →
      (lines.foldl claudeStepLine st).title = st.title := by
  induction lines with
  | nil => intro st _; rfl
  | cons l ls ih =>
    intro st h
    rw [List.foldl_cons]
    have hst : (claudeStepLine st l).title = st.title := by
      simp only [claudeStepLine]
      split_ifs with h1 h2 h3
      · rfl
      · exact absurd h2.1 h
      · rfl
      · rfl
    rw [ih _ (by rw [hst]; exact h), hst]


/-- The line the Research loop accepts into the title slot: not a date
line, not an allow-listed category, longer than 15 characters. -/
def researchTitleCand (l : String) : Bool :=
  decide (isDateLine l = false ∧ l ∉ researchCategories ∧ l.data.length > 15)

/-- The line the Claude loop accepts into the title slot: not a date
line, longer than 10 characters, not a "Read more" call-to-action. -/
def claudeTitleCand (l : String) : Bool :=
  decide (isDateLine l = false ∧ l.data.length > 10 ∧
    strIncludes l "Read more" = false)

theorem datal_ne_empty (l : String) (h : l.data.length > 0) : l ≠ "" := by
  intro he
  rw [strEq_empty_iff] at he
  rw [he] at h
  exact absurd h (by simp)

theorem researchStepLine_eq_title (st : ScanSt) (l : String)
    (hd : isDateLine l = false) (hc : l ∉ researchCategories)
    (ht : st.title = "") (hl : l.data.length > 15) :
    researchStepLine st l = { st with title := l } := by
  unfold researchStepLine
  rw [if_neg (by simp [hd]), if_neg hc, if_pos ⟨ht, hl⟩]

/-- Title characterization of the Research loop: starting with an empty
title slot, the final title is the first candidate line, or empty when
there is none. -/
theorem researchFold_title (lines : List String) :
    ∀ st : ScanSt, st.title = "" →
      (lines.foldl researchStepLine st).title =
        ((lines.find? researchTitleCand).getD "") := by
  induction lines with
  | nil => intro st h; simpa using h
  | cons l ls ih =>
    intro st h
    rw [List.foldl_cons]
    by_cases hcand : researchTitleCand l = true
    · rw [List.find?_cons_of_pos _ hcand]
      obtain ⟨hd, hcat, hlen⟩ := of_decide_eq_true hcand
      rw [researchStepLine_eq_title st l hd hcat h hlen]
      have hne : ({ st with title := l } : ScanSt).title ≠ "" :=
        datal_ne_empty l (by omega)
      rw [researchFold_title_keep ls _ hne]
      rfl
    · rw [List.find?_cons_of_neg _ hcand]
      have hkeep : (researchStepLine st l).title = st.title := by
        unfold researchStepLine
        split_ifs with h1 h2 h3
        · rfl
        · rfl
        · exact absurd (decide_eq_true
            ⟨Bool.not_eq_true _ |>.mp h1, h2, h3.2⟩) hcand
        · rfl
      rw [ih (researchStepLine st l) (hkeep.trans h)]

theorem claudeStepLine_eq_title (st : ScanSt) (l : String)
    (hd : isDateLine l = false) (ht : st.title = "")
    (hl : l.data.length > 10) (hr : strIncludes l "Read more" = false) :
    claudeStepLine st l = { st with title := l } := by
  unfold claudeStepLine
  rw [if_neg (by simp [hd]), if_pos ⟨ht, hl, hr⟩]

/-- Title characterization of the Claude loop. -/
theorem claudeFold_title (lines : List String) :
    ∀ st : ScanSt, st.title = "" →
      (lines.foldl claudeStepLine st).title =
        ((lines.find? claudeTitleCand).getD "") := by
  induction lines with
  | nil => intro st h; simpa using h
  | cons l ls ih =>
    intro st h
    rw [List.foldl_cons]
    by_cases hcand : claudeTitleCand l = true
    · rw [List.find?_cons_of_pos _ hcand]
      obtain ⟨hd, hlen, hrm⟩ := of_decide_eq_true hcand
      rw [claudeStepLine_eq_title st l hd h hlen hrm]
      have hne : ({ st with title := l } : ScanSt).title ≠ "" :=
        datal_ne_empty l (by omega)
      rw [claudeFold_title_keep ls _ hne]
      rfl
    · rw [List.find?_cons_of_neg _ hcand]
      have hkeep : (claudeStepLine st l).title = st.title := by
        unfold claudeStepLine
        split_ifs with h1 h2 h3
        · rfl
        · exact absurd (decide_eq_true
            ⟨Bool.not_eq_true _ |>.mp h1, h2.2.1, h2.2.2⟩) hcand
        · rfl
        · rfl
      rw [ih (claudeStepLine st l) (hkeep.trans h)]

theorem researchCategories_not_date :
    ∀ c ∈ researchCategories, isDateLine c = false := by decide

theorem getLastD_cons (x d : String) (xs : List String) :
    ((x :: xs).getLast?).getD d = (xs.getLast?).getD x := by
  induction xs generalizing x d with
  | nil => rfl
  | cons y ys ih =>
    rw [List.getLast?_cons_cons]
    calc ((y :: ys).getLast?).getD d = (ys.getLast?).getD y := ih y d
      _ = ((y :: ys).getLast?).getD x := (ih y x).symm

/-- Category characterization of the Research loop: the final category is
the last allow-listed line, or the starting category when there is none. -/
theorem researchFold_category (lines : List String) :
    ∀ st : ScanSt, (lines.foldl researchStepLine st).category =
      ((lines.filter (fun l => researchCategories.contains l)).getLast?).getD
        st.category := by
  induction lines with
  | nil => intro st; rfl
  | cons l ls ih =>
    intro st
    rw [List.foldl_cons, List.filter_cons]
    by_cases hcat : l ∈ researchCategories
    · have hc : researchCategories.contains l = true := List.elem_eq_true_of_mem hcat
      have hd : isDateLine l = false := researchCategories_not_date l hcat
      have hstep : researchStepLine st l = { st with category := l } := by
        unfold researchStepLine
        rw [if_neg (by simp [hd]), if_pos hcat]
      rw [hstep, if_pos hc, getLastD_cons, ih]
    · have hc : researchCategories.contains l = false := by
        cases hcc : researchCategories.contains l
        · rfl
        · exact absurd (List.mem_of_elem_eq_true hcc) hcat
      have hstep : (researchStepLine st l).category = st.category := by
        unfold researchStepLine
        split_ifs <;> rfl
      rw [if_neg (by simpa using hcat), ih (researchStepLine st l), hstep]

/-! ## Parser output invariants -/

theorem mkCursorPost_mem (siteUrl : String) (el : Node) (q : BlogPost)
    (h : mkCursorPost siteUrl el = some q) :
    q.title ≠ "" ∧ q.link ≠ "" ∧ isNormalizedStr q.title = true := by
  simp only [mkCursorPost] at h
  split_ifs at h with h1 h2 <;>
    (push_neg at h2
     injection h with h
     subst h
     exact ⟨h2.1, h2.2, isNormalizedStr_normalizeText _⟩)

theorem mkCursorFallbackPost_mem (siteUrl : String) (el : Node) (q : BlogPost)
    (h : mkCursorFallbackPost siteUrl el = some q) :
    q.title ≠ "" ∧ q.link ≠ "" := by
  simp only [mkCursorFallbackPost] at h
  split_ifs at h with h1 h2 h3 <;>
    (push_neg at h3
     injection h with h
     subst h
     exact ⟨h3.1, h3.2⟩)

theorem foldl_step_mem
    (step : (List BlogPost × List String) → Node → List BlogPost × List String)
    (P : BlogPost → Prop)
    (hstep : ∀ acc el q, q ∈ (step acc el).1 → q ∈ acc.1 ∨ P q) :
    ∀ (els : List Node) (acc : List BlogPost × List String) (q : BlogPost),
      q ∈ (els.foldl step acc).1 → q ∈ acc.1 ∨ P q := by
  intro els
  induction els with
  | nil => intro acc q h; left; exact h
  | cons el els ih =>
    intro acc q h
    rw [List.foldl_cons] at h
    rcases ih (step acc el) q h with h2 | h2
    · exact hstep acc el q h2
    · right; exact h2

theorem claudeAnchorStep_cases (siteUrl : String) (acc : List BlogPost × List String)
    (el : Node) :
    claudeAnchorStep siteUrl acc el = acc ∨
      ∃ u, u ≠ "" ∧ (claudeScan (linesOf (textOf el))).title ≠ "" ∧
        claudeAnchorStep siteUrl acc el =
          (acc.1 ++ [⟨normalizeText (claudeScan (linesOf (textOf el))).title, u, "",
             (claudeScan (linesOf (textOf el))).category,
             (claudeScan (linesOf (textOf el))).dateStr, "Claude Blog"⟩],
           acc.2 ++ [u]) := by
  simp only [claudeAnchorStep]
  by_cases h1 : (attrOf el "href").getD "" = "/blog" ∨
      (attrOf el "href").getD "" = "/blog/" ∨
      strIncludes ((attrOf el "href").getD "") "/blog/" = false
  · rw [if_pos h1]
    left
    rfl
  · rw [if_neg h1]
    push_neg at h1
    have hinc : strIncludes ((attrOf el "href").getD "") "/blog/" = true :=
      Bool.not_eq_false _ |>.mp h1.2.2
    have hne : (attrOf el "href").getD "" ≠ "" := by
      intro he
      rw [he] at hinc
      exact absurd hinc (by decide)
    have hu : (if strStarts ((attrOf el "href").getD "") "http" = true
        then (attrOf el "href").getD "" else siteUrl ++ (attrOf el "href").getD "") ≠ "" := by
      split_ifs
      · exact hne
      · exact strApp_ne_empty _ _ hne
    by_cases h2 : (if strStarts ((attrOf el "href").getD "") "http" = true
        then (attrOf el "href").getD "" else siteUrl ++ (attrOf el "href").getD "") ∈ acc.2
    · rw [if_pos h2]
      left
      rfl
    · rw [if_neg h2]
      by_cases h3 : linesOf (textOf el) = []
      · rw [if_pos h3]
        left
        rfl
      · rw [if_neg h3]
        by_cases h4 : (claudeScan (linesOf (textOf el))).title = ""
        · rw [if_pos h4]
          left
          rfl
        · rw [if_neg h4]
          right
          exact ⟨_, hu, h4, rfl⟩

theorem claudeAnchorStep_mem (siteUrl : String) (acc : List BlogPost × List String)
    (el : Node) (q : BlogPost) (h : q ∈ (claudeAnchorStep siteUrl acc el).1) :
    q ∈ acc.1 ∨ (q.title ≠ "" ∧ q.link ≠ "" ∧ isNormalizedStr q.title = true) := by
  rcases claudeAnchorStep_cases siteUrl acc el with hc | ⟨u, hu, ht, hc⟩
  · rw [hc] at h
    exact Or.inl h
  · rw [hc] at h
    replace h : q ∈ acc.1 ++ [(⟨normalizeText (claudeScan (linesOf (textOf el))).title,
      u, "", (claudeScan (linesOf (textOf el))).category,
      (claudeScan (linesOf (textOf el))).dateStr, "Claude Blog"⟩ : BlogPost)] := h
    rcases List.mem_append.mp h with h | h
    · exact Or.inl h
    · right
      rw [List.mem_singleton] at h
      subst h
      refine ⟨?_, hu, isNormalizedStr_normalizeText _⟩
      rcases foldl_title_cases claudeStepLine claudeStepLine_title
        (linesOf (textOf el)) ⟨"", "", "Blog"⟩ with hm | hm
      · exact absurd hm ht
      · exact (mem_linesOf _ _ hm).2

theorem engAnchorStep_cases (siteUrl : String) (acc : List BlogPost × List String)
    (el : Node) :
    engAnchorStep siteUrl acc el = acc ∨
      ∃ u, u ≠ "" ∧ (engScan (linesOf (textOf el))).title ≠ "" ∧
        engAnchorStep siteUrl acc el =
          (acc.1 ++ [⟨normalizeText (engScan (linesOf (textOf el))).title, u, "",
             (engScan (linesOf (textOf el))).category,
             (engScan (linesOf (textOf el))).dateStr, "Anthropic Engineering"⟩],
           acc.2 ++ [u]) := by
  simp only [engAnchorStep]
  by_cases h1 : strIncludes ((attrOf el "href").getD "") "/engineering/" = false ∧
      strIncludes ((attrOf el "href").getD "") "/news/" = false
  · rw [if_pos h1]
    left
    rfl
  · rw [if_neg h1]
    have hne : (attrOf el "href").getD "" ≠ "" := by
      rcases Decidable.not_and_iff_or_not.mp h1 with hi | hi
      · have hi2 : strIncludes ((attrOf el "href").getD "") "/engineering/" = true :=
          Bool.not_eq_false _ |>.mp hi
        intro he
        rw [he] at hi2
        exact absurd hi2 (by decide)
      · have hi2 : strIncludes ((attrOf el "href").getD "") "/news/" = true :=
          Bool.not_eq_false _ |>.mp hi
        intro he
        rw [he] at hi2
        exact absurd hi2 (by decide)
    by_cases h2 : (attrOf el "href").getD "" = "/engineering" ∨
        (attrOf el "href").getD "" = "/engineering/"
    · rw [if_pos h2]
      left
      rfl
    · rw [if_neg h2]
      have hu : (if strStarts ((attrOf el "href").getD "") "http" = true
          then (attrOf el "href").getD "" else siteUrl ++ (attrOf el "href").getD "") ≠ "" := by
        split_ifs
        · exact hne
        · exact strApp_ne_empty _ _ hne
      by_cases h3 : (if strStarts ((attrOf el "href").getD "") "http" = true
          then (attrOf el "href").getD "" else siteUrl ++ (attrOf el "href").getD "") ∈ acc.2
      · rw [if_pos h3]
        left
        rfl
      · rw [if_neg h3]
        by_cases h4 : linesOf (textOf el) = []
        · rw [if_pos h4]
          left
          rfl
        · rw [if_neg h4]
          by_cases h5 : (engScan (linesOf (textOf el))).title = ""
          · rw [if_pos h5]
            left
            rfl
          · rw [if_neg h5]
            right
            exact ⟨_, hu, h5, rfl⟩

theorem engAnchorStep_mem (siteUrl : String) (acc : List BlogPost × List String)
    (el : Node) (q : BlogPost) (h : q ∈ (engAnchorStep siteUrl acc el).1) :
    q ∈ acc.1 ∨ (q.title ≠ "" ∧ q.link ≠ "" ∧ isNormalizedStr q.title = true) := by
  rcases engAnchorStep_cases siteUrl acc el with hc | ⟨u, hu, ht, hc⟩
  · rw [hc] at h
    exact Or.inl h
  · rw [hc] at h
    replace h : q ∈ acc.1 ++ [(⟨normalizeText (engScan (linesOf (textOf el))).title,
      u, "", (engScan (linesOf (textOf el))).category,
      (engScan (linesOf (textOf el))).dateStr, "Anthropic Engineering"⟩ : BlogPost)] := h
    rcases List.mem_append.mp h with h | h
    · exact Or.inl h
    · right
      rw [List.mem_singleton] at h
      subst h
      refine ⟨?_, hu, isNormalizedStr_normalizeText _⟩
      rcases foldl_title_cases engStepLine engStepLine_title
        (linesOf (textOf el)) ⟨"", "", "Engineering"⟩ with hm | hm
      · exact absurd hm ht
      · exact (mem_linesOf _ _ hm).2

theorem researchAnchorStep_cases (siteUrl : String) (acc : List BlogPost × List String)
    (el : Node) :
    researchAnchorStep siteUrl acc el = acc ∨
      ∃ u, u ≠ "" ∧ (researchScan (linesOf (textOf el))).title ≠ "" ∧
        researchAnchorStep siteUrl acc el =
          (acc.1 ++ [⟨normalizeText (researchScan (linesOf (textOf el))).title, u, "",
             (researchScan (linesOf (textOf el))).category,
             (researchScan (linesOf (textOf el))).dateStr, "Anthropic Research"⟩],
           acc.2 ++ [u]) := by
  simp only [researchAnchorStep]
  by_cases h1 : strIncludes ((attrOf el "href").getD "") "/research/" = false ∧
      strIncludes ((attrOf el "href").getD "") "/news/" = false
  · rw [if_pos h1]
    left
    rfl
  · rw [if_neg h1]
    have hne : (attrOf el "href").getD "" ≠ "" := by
      rcases Decidable.not_and_iff_or_not.mp h1 with hi | hi
      · have hi2 : strIncludes ((attrOf el "href").getD "") "/research/" = true :=
          Bool.not_eq_false _ |>.mp hi
        intro he
        rw [he] at hi2
        exact absurd hi2 (by decide)
      · have hi2 : strIncludes ((attrOf el "href").getD "") "/news/" = true :=
          Bool.not_eq_false _ |>.mp hi
        intro he
        rw [he] at hi2
        exact absurd hi2 (by decide)
    by_cases h2 : (attrOf el "href").getD "" = "/research" ∨
        (attrOf el "href").getD "" = "/research/"
    · rw [if_pos h2]
      left
      rfl
    · rw [if_neg h2]
      have hu : (if strStarts ((attrOf el "href").getD "") "http" = true
          then (attrOf el "href").getD "" else siteUrl ++ (attrOf el "href").getD "") ≠ "" := by
        split_ifs
        · exact hne
        · exact strApp_ne_empty _ _ hne
      by_cases h3 : (if strStarts ((attrOf el "href").getD "") "http" = true
          then (attrOf el "href").getD "" else siteUrl ++ (attrOf el "href").getD "") ∈ acc.2
      · rw [if_pos h3]
        left
        rfl
      · rw [if_neg h3]
        by_cases h4 : linesOf (textOf el) = []
        · rw [if_pos h4]
          left
          rfl
        · rw [if_neg h4]
          by_cases h5 : (researchScan (linesOf (textOf el))).title = ""
          · rw [if_pos h5]
            left
            rfl
          · rw [if_neg h5]
            right
            exact ⟨_, hu, h5, rfl⟩

theorem researchAnchorStep_mem (siteUrl : String) (acc : List BlogPost × List String)
    (el : Node) (q : BlogPost) (h : q ∈ (researchAnchorStep siteUrl acc el).1) :
    q ∈ acc.1 ∨ (q.title ≠ "" ∧ q.link ≠ "" ∧ isNormalizedStr q.title = true) := by
  rcases researchAnchorStep_cases siteUrl acc el with hc | ⟨u, hu, ht, hc⟩
  · rw [hc] at h
    exact Or.inl h
  · rw [hc] at h
    replace h : q ∈ acc.1 ++ [(⟨normalizeText (researchScan (linesOf (textOf el))).title,
      u, "", (researchScan (linesOf (textOf el))).category,
      (researchScan (linesOf (textOf el))).dateStr, "Anthropic Research"⟩ : BlogPost)] := h
    rcases List.mem_append.mp h with h | h
    · exact Or.inl h
    · right
      rw [List.mem_singleton] at h
      subst h
      refine ⟨?_, hu, isNormalizedStr_normalizeText _⟩
      rcases foldl_title_cases researchStepLine researchStepLine_title
        (linesOf (textOf el)) ⟨"", "", "Research"⟩ with hm | hm
      · exact absurd hm ht
      · exact (mem_linesOf _ _ hm).2

/-! ## Crawler lemmas -/

theorem crawlFrom_fail (fetchFn : String → Option String)
    (parse : String → String → List BlogPost) (baseUrl siteUrl : String)
    (page fuel : Nat) (acc : List BlogPost) (fetched : List String)
    (hf : fetchFn (pageUrl baseUrl page) = none) :
    crawlFrom fetchFn parse baseUrl siteUrl page (fuel + 1) acc fetched =
      ⟨acc, fetched ++ [pageUrl baseUrl page]⟩ := by
  simp [crawlFrom, hf]

theorem crawlFrom_stop_empty (fetchFn : String → Option String)
    (parse : String → String → List BlogPost) (baseUrl siteUrl : String)
    (page fuel : Nat) (acc : List BlogPost) (fetched : List String) (html : String)
    (hf : fetchFn (pageUrl baseUrl page) = some html)
    (he : (parse html siteUrl).isEmpty = true) :
    crawlFrom fetchFn parse baseUrl siteUrl page (fuel + 1) acc fetched =
      ⟨acc, fetched ++ [pageUrl baseUrl page]⟩ := by
  simp [crawlFrom, hf, he]

theorem crawlFrom_stop_nonext (fetchFn : String → Option String)
    (parse : String → String → List BlogPost) (baseUrl siteUrl : String)
    (page fuel : Nat) (acc : List BlogPost) (fetched : List String) (html : String)
    (hf : fetchFn (pageUrl baseUrl page) = some html)
    (hne : (parse html siteUrl).isEmpty = false)
    (hn : strIncludes html ("/blog/page/" ++ natToStr (page + 1)) = false) :
    crawlFrom fetchFn parse baseUrl siteUrl page (fuel + 1) acc fetched =
      ⟨acc ++ parse html siteUrl, fetched ++ [pageUrl baseUrl page]⟩ := by
  simp [crawlFrom, hf, hne, hn]

theorem crawlFrom_cont (fetchFn : String → Option String)
    (parse : String → String → List BlogPost) (baseUrl siteUrl : String)
    (page fuel : Nat) (acc : List BlogPost) (fetched : List String) (html : String)
    (hf : fetchFn (pageUrl baseUrl page) = some html)
    (hne : (parse html siteUrl).isEmpty = false)
    (hn : strIncludes html ("/blog/page/" ++ natToStr (page + 1)) = true) :
    crawlFrom fetchFn parse baseUrl siteUrl page (fuel + 1) acc fetched =
      crawlFrom fetchFn parse baseUrl siteUrl (page + 1) fuel
        (acc ++ parse html siteUrl) (fetched ++ [pageUrl baseUrl page]) := by
  simp [crawlFrom, hf, hne, hn]

/-- The fetched URLs of any crawl are a page-number range starting at the
current page, with at most `fuel` entries. -/
theorem crawlFrom_fetched (fetchFn : String → Option String)
    (parse : String → String → List BlogPost) (baseUrl siteUrl : String) :
    ∀ (fuel page : Nat) (acc : List BlogPost) (fetched : List String),
      ∃ m, m ≤ fuel ∧
        (crawlFrom fetchFn parse baseUrl siteUrl page fuel acc fetched).fetched =
          fetched ++ (List.range m).map (fun i => pageUrl baseUrl (page + i)) := by
  intro fuel
  induction fuel with
  | zero =>
    intro page acc fetched
    exact ⟨0, Nat.le_refl 0, by simp [crawlFrom]⟩
  | succ fuel ih =>
    intro page acc fetched
    cases hf : fetchFn (pageUrl baseUrl page) with
    | none =>
      refine ⟨1, by omega, ?_⟩
      rw [crawlFrom_fail fetchFn parse baseUrl siteUrl page fuel acc fetched hf]
      rw [show List.range 1 = [0] from rfl]
      simp
    | some html =>
      by_cases he : (parse html siteUrl).isEmpty = true
      · refine ⟨1, by omega, ?_⟩
        rw [crawlFrom_stop_empty fetchFn parse baseUrl siteUrl page fuel acc fetched
          html hf he]
        rw [show List.range 1 = [0] from rfl]
        simp
      · by_cases hn : strIncludes html ("/blog/page/" ++ natToStr (page + 1)) = true
        · obtain ⟨m, hm, heq⟩ :=
            ih (page + 1) (acc ++ parse html siteUrl) (fetched ++ [pageUrl baseUrl page])
          refine ⟨m + 1, by omega, ?_⟩
          rw [crawlFrom_cont fetchFn parse baseUrl siteUrl page fuel acc fetched html hf
            ((Bool.not_eq_true _).mp he) hn, heq]
          rw [List.append_assoc]
          congr 1
          rw [List.range_succ_eq_map]
          simp only [List.map_cons, List.map_map, Nat.add_zero, List.cons_append,
            List.nil_append, List.singleton_append]
          congr 1
          apply List.map_congr_left
          intro i _
          simp only [Function.comp_apply]
          congr 1
          omega
        · refine ⟨1, by omega, ?_⟩
          rw [crawlFrom_stop_nonext fetchFn parse baseUrl siteUrl page fuel acc fetched
            html hf ((Bool.not_eq_true _).mp he) ((Bool.not_eq_true _).mp hn)]
          rw [show List.range 1 = [0] from rfl]
          simp

/-! ## Concrete documents and stubs used in scenario theorems -/

/-- The card-parser scenario fragment: one article whose anchor targets
`/blog/example` and holds a title paragraph, a description paragraph, a
category label `"News · "`, and a time element dated `2025-11-13`. -/
def exampleFragment : List Node :=
  [Node.elem "article" [] []
    [Node.elem "a" [("href", "/blog/example")] []
      [Node.elem "p" [] [] [Node.text "Example Title"],
       Node.elem "p" [] [] [Node.text "Example description"],
       Node.elem "span" [] ["capitalize"] [Node.text "News · "],
       Node.elem "time" [("dateTime", "2025-11-13")] [] []]]]

/-- A document whose only anchor is pagination navigation with visible text. -/
def navigationDoc : List Node :=
  [Node.elem "a" [("href", "/blog/page/2")] []
    [Node.text "Older posts and archive pages"]]

/-- A bare pagination-navigation anchor element. -/
def navigationAnchor : Node :=
  Node.elem "a" [("href", "/blog/page/2")] [] []

/-- A Claude-style card whose first text line is the long category label
"Enterprise AI". -/
def categoryFirstDoc : List Node :=
  [Node.elem "a" [("href", "/blog/x")] []
    [Node.text "Enterprise AI", Node.text "\n",
     Node.text "A very long real title here"]]

/-- A card whose first text line contains an interior double space. -/
def doubleSpaceDoc : List Node :=
  [Node.elem "a" [("href", "/blog/x")] []
    [Node.text "Big  title", Node.text "\n", Node.text "News · Nov 13, 2025"]]

/-- A minimal Claude-style card with a valid long title. -/
def plainCardDoc : List Node :=
  [Node.elem "a" [("href", "/blog/w")] []
    [Node.text "A Claude post title example"]]

def stubPostA : BlogPost := ⟨"t1", "l1", "", "c", "d", "Cursor"⟩

def stubPostB : BlogPost := ⟨"t2", "l2", "", "c", "d", "Cursor"⟩

def stubPostC : BlogPost := ⟨"t3", "l3", "", "c", "d", "Cursor"⟩

/-- Fetch stub whose page HTML carries no next-page reference. -/
def plainFetchStub : String → Option String := fun u =>
  if u = "b" then some "one"
  else if u = "b/page/2" then some "two"
  else if u = "b/page/3" then some "three"
  else if u = "b/page/4" then some "four"
  else none

def plainParseStub : String → String → List BlogPost := fun h _ =>
  if h = "one" then [stubPostA]
  else if h = "two" then [stubPostB]
  else if h = "three" then [stubPostC]
  else []

/-- Fetch stub whose pages 1-3 carry the next-page fragment. -/
def linkedFetchStub : String → Option String := fun u =>
  if u = "b" then some "one /blog/page/2"
  else if u = "b/page/2" then some "two /blog/page/3"
  else if u = "b/page/3" then some "three /blog/page/4"
  else if u = "b/page/4" then some "four"
  else none

def linkedParseStub : String → String → List BlogPost := fun h _ =>
  if h = "one /blog/page/2" then [stubPostA]
  else if h = "two /blog/page/3" then [stubPostB]
  else if h = "three /blog/page/4" then [stubPostC]
  else []

def dupA : BlogPost := ⟨"a", "L1", "", "c", "d", "s"⟩

def dupB : BlogPost := ⟨"b", "L2", "", "c", "d", "s"⟩

def dupC : BlogPost := ⟨"cc", "L1", "", "c", "d2", "s"⟩

def keptPost : BlogPost := ⟨"kept", "k", "", "c", "d", "Cursor"⟩

/-! ## Claim theorems -/

/-- C1: Aggregator sort correctness.  The aggregate list — deduplicated by
link, then stably sorted by resolved date descending — is non-increasing
in resolved date on every adjacent pair, and any posts whose raw date
strings resolve to equal instants (including now-fallback ties) retain
their relative input order: for every instant `d`, the subsequence of
output posts resolving to `d` equals the corresponding subsequence of the
deduplicated input. -/
theorem aggregator_sort_correct (now : Int) (posts : List BlogPost) :
    List.Chain' (fun a b => parseDate now b.date ≤ parseDate now a.date)
      (sortedPosts now posts) ∧
    ∀ d : Int,
      (sortedPosts now posts).filter (fun p => parseDate now p.date == d) =
        (dedupeByLink posts).filter (fun p => parseDate now p.date == d) :=
  ⟨chain_sortDescBy _ _, fun d => filter_sortDescBy _ d _⟩

/-- C2: Deduplicator first-seen-wins semantics.  `dedupeByLink` returns a
subsequence of its input whose links are pairwise distinct; every kept
post is the first input post carrying its link; and every input link is
represented. -/
theorem dedupe_first_seen_wins (posts : List BlogPost) :
    (dedupeByLink posts).Sublist posts ∧
    ((dedupeByLink posts).map (fun p => p.link)).Nodup ∧
    (∀ p ∈ dedupeByLink posts,
      posts.find? (fun q => q.link == p.link) = some p) ∧
    (∀ p ∈ posts, ∃ q ∈ dedupeByLink posts, q.link = p.link) := by
  refine ⟨dedupeAux_sublist posts [], dedupeAux_nodup posts [], ?_, ?_⟩
  · intro p hp
    exact (dedupeAux_first posts [] p hp).2
  · intro p hp
    exact dedupeAux_complete posts [] p hp (by simp)

theorem dedupe_first_seen_wins_witness :
    dupA ∈ dedupeByLink [dupA, dupB, dupC] ∧
    [dupA, dupB, dupC].find? (fun q => q.link == dupA.link) = some dupA :=
  ⟨by decide, (dedupe_first_seen_wins [dupA, dupB, dupC]).2.2.1 dupA (by decide)⟩

/-- C3: the Date Resolver is total and falls back to now.  `parseDate` is
a total function; on the unparseable inputs `""` and `"not a date"` it
returns the current instant `now`, on a string the date parser accepts it
returns the parsed instant, and on any string the parser rejects it
returns `now`. -/
theorem dateResolver_total_fallback (now : Int) (s : String) :
    parseDate now "" = now ∧
    parseDate now "not a date" = now ∧
    (∀ t, jsDateParse s = some t → parseDate now s = t) ∧
    (jsDateParse s = none → parseDate now s = now) := by
  refine ⟨rfl, rfl, ?_, ?_⟩
  · intro t ht
    simp [parseDate, ht]
  · intro ht
    simp [parseDate, ht]

theorem dateResolver_witness :
    parseDate 5 "" = 5 ∧ parseDate 5 "2025-11-13" = 65112940800000 :=
  ⟨(dateResolver_total_fallback 5 "").1,
   (dateResolver_total_fallback 5 "2025-11-13").2.2.1 65112940800000 (by decide)⟩

theorem pageUrl_succ (b : String) (k : Nat) (hk : ¬k = 1) (s : String)
    (hs : "/page/" ++ natToStr k = s) : pageUrl b k = b ++ s := by
  rw [← hs]
  simp only [pageUrl, if_neg hk]
  rw [strApp_assoc]

/-- C4 (amended): pagination termination on empty parse.  For a fetch stub
that succeeds on pages 1-4, parses non-empty on pages 1-3 and empty on
page 4, and whose pages 1-3 contain the next-page fragment, the crawler
returns the concatenation of the posts of pages 1-3 in page order and
fetches exactly pages 1-4 — in particular it never fetches page 5. -/
theorem pagination_termination_amended
    (fetchFn : String → Option String) (parse : String → String → List BlogPost)
    (baseUrl siteUrl h1 h2 h3 h4 : String)
    (hf1 : fetchFn baseUrl = some h1)
    (hf2 : fetchFn (baseUrl ++ "/page/2") = some h2)
    (hf3 : fetchFn (baseUrl ++ "/page/3") = some h3)
    (hf4 : fetchFn (baseUrl ++ "/page/4") = some h4)
    (hp1 : (parse h1 siteUrl).isEmpty = false)
    (hp2 : (parse h2 siteUrl).isEmpty = false)
    (hp3 : (parse h3 siteUrl).isEmpty = false)
    (hp4 : (parse h4 siteUrl).isEmpty = true)
    (hn1 : strIncludes h1 "/blog/page/2" = true)
    (hn2 : strIncludes h2 "/blog/page/3" = true)
    (hn3 : strIncludes h3 "/blog/page/4" = true) :
    (fetchCursorPosts fetchFn parse baseUrl siteUrl).posts =
      parse h1 siteUrl ++ parse h2 siteUrl ++ parse h3 siteUrl ∧
    (fetchCursorPosts fetchFn parse baseUrl siteUrl).fetched =
      [baseUrl, baseUrl ++ "/page/2", baseUrl ++ "/page/3", baseUrl ++ "/page/4"] := by
  have e1 : pageUrl baseUrl 1 = baseUrl := by simp [pageUrl]
  have e2 : pageUrl baseUrl 2 = baseUrl ++ "/page/2" :=
    pageUrl_succ baseUrl 2 (by omega) _ (by decide)
  have e3 : pageUrl baseUrl 3 = baseUrl ++ "/page/3" :=
    pageUrl_succ baseUrl 3 (by omega) _ (by decide)
  have e4 : pageUrl baseUrl 4 = baseUrl ++ "/page/4" :=
    pageUrl_succ baseUrl 4 (by omega) _ (by decide)
  have c1 := crawlFrom_cont fetchFn parse baseUrl siteUrl 1 99 [] [] h1
    (by rw [e1]; exact hf1) hp1
    (by rw [show ("/blog/page/" ++ natToStr (1 + 1) : String) = "/blog/page/2" from by decide]
        exact hn1)
  have c2 := crawlFrom_cont fetchFn parse baseUrl siteUrl 2 98
    ([] ++ parse h1 siteUrl) ([] ++ [pageUrl baseUrl 1]) h2
    (by rw [e2]; exact hf2) hp2
    (by rw [show ("/blog/page/" ++ natToStr (2 + 1) : String) = "/blog/page/3" from by decide]
        exact hn2)
  have c3 := crawlFrom_cont fetchFn parse baseUrl siteUrl 3 97
    ([] ++ parse h1 siteUrl ++ parse h2 siteUrl)
    ([] ++ [pageUrl baseUrl 1] ++ [pageUrl baseUrl 2]) h3
    (by rw [e3]; exact hf3) hp3
    (by rw [show ("/blog/page/" ++ natToStr (3 + 1) : String) = "/blog/page/4" from by decide]
        exact hn3)
  have c4 := crawlFrom_stop_empty fetchFn parse baseUrl siteUrl 4 96
    ([] ++ parse h1 siteUrl ++ parse h2 siteUrl ++ parse h3 siteUrl)
    ([] ++ [pageUrl baseUrl 1] ++ [pageUrl baseUrl 2] ++ [pageUrl baseUrl 3]) h4
    (by rw [e4]; exact hf4) hp4
  unfold fetchCursorPosts
  rw [show (100 : Nat) = 99 + 1 from rfl, c1,
    show (1 + 1 : Nat) = 2 from rfl, show (99 : Nat) = 98 + 1 from rfl, c2,
    show (2 + 1 : Nat) = 3 from rfl, show (98 : Nat) = 97 + 1 from rfl, c3,
    show (3 + 1 : Nat) = 4 from rfl, show (97 : Nat) = 96 + 1 from rfl, c4]
  constructor
  · simp
  · simp [e1, e2, e3, e4]

/-- C4 counterexample: a stub satisfying the claim's premise — fetch
succeeds for pages 1-4, parse is non-empty for pages 1-3 and empty for
page 4 — for which the crawler does not return the concatenation of pages
1-3, because page 1's HTML carries no next-page reference and the crawl
stops after page 1. -/
theorem pagination_termination_counterexample :
    plainParseStub "one" "s" ≠ [] ∧
    plainParseStub "two" "s" ≠ [] ∧
    plainParseStub "three" "s" ≠ [] ∧
    plainParseStub "four" "s" = [] ∧
    plainFetchStub "b" = some "one" ∧
    plainFetchStub ("b" ++ "/page/2") = some "two" ∧
    plainFetchStub ("b" ++ "/page/3") = some "three" ∧
    plainFetchStub ("b" ++ "/page/4") = some "four" ∧
    (fetchCursorPosts plainFetchStub plainParseStub "b" "s").posts ≠
      plainParseStub "one" "s" ++ plainParseStub "two" "s" ++
        plainParseStub "three" "s" := by
  decide

theorem pagination_termination_witness :
    (fetchCursorPosts linkedFetchStub linkedParseStub "b" "s").posts =
      linkedParseStub "one /blog/page/2" "s" ++
        linkedParseStub "two /blog/page/3" "s" ++
        linkedParseStub "three /blog/page/4" "s" ∧
    (fetchCursorPosts linkedFetchStub linkedParseStub "b" "s").fetched =
      ["b", "b" ++ "/page/2", "b" ++ "/page/3", "b" ++ "/page/4"] :=
  pagination_termination_amended linkedFetchStub linkedParseStub "b" "s"
    "one /blog/page/2" "two /blog/page/3" "three /blog/page/4" "four"
    (by decide) (by decide) (by decide) (by decide) (by decide) (by decide)
    (by decide) (by decide) (by decide) (by decide) (by decide)

/-- C5: pagination ceiling.  For every injected fetcher and parser the
Pagination Crawler performs at most 100 fetches, and every fetched URL is
the bare listing URL (page 1) or a `/page/<k>` URL with `2 ≤ k ≤ 100` —
it never requests a page number above 100. -/
theorem pagination_ceiling (fetchFn : String → Option String)
    (parse : String → String → List BlogPost) (baseUrl siteUrl : String) :
    (fetchCursorPosts fetchFn parse baseUrl siteUrl).fetched.length ≤ 100 ∧
    ∀ u ∈ (fetchCursorPosts fetchFn parse baseUrl siteUrl).fetched,
      u = baseUrl ∨
        ∃ k, 2 ≤ k ∧ k ≤ 100 ∧ u = baseUrl ++ "/page/" ++ natToStr k := by
  obtain ⟨m, hm, heq⟩ := crawlFrom_fetched fetchFn parse baseUrl siteUrl 100 1 [] []
  unfold fetchCursorPosts
  constructor
  · rw [heq]
    simp only [List.nil_append, List.length_map, List.length_range]
    exact hm
  · rw [heq]
    simp only [List.nil_append]
    intro u hu
    obtain ⟨i, hi, rfl⟩ := List.mem_map.mp hu
    rw [List.mem_range] at hi
    cases i with
    | zero => left; simp [pageUrl]
    | succ j =>
      right
      refine ⟨j + 2, by omega, by omega, ?_⟩
      rw [show 1 + (j + 1) = j + 2 from by omega]
      simp only [pageUrl, if_neg (show ¬j + 2 = 1 from by omega)]

theorem pagination_ceiling_witness :
    "b" ∈ (fetchCursorPosts (fun _ => none) (fun _ _ => []) "b" "s").fetched ∧
    ("b" = "b" ∨
      ∃ k, 2 ≤ k ∧ k ≤ 100 ∧ "b" = "b" ++ "/page/" ++ natToStr k) :=
  ⟨by decide,
   (pagination_ceiling (fun _ => none) (fun _ _ => []) "b" "s").2 "b" (by decide)⟩

/-- C6: fetch-failure absorption.  A thrown fetch (`none`) is never
propagated: the pagination loop ends the crawl at the failing page and
returns exactly the posts accumulated from the pages fetched before it,
and the single-page crawlers return the empty list when their one fetch
fails. -/
theorem fetch_failure_absorption (fetchFn : String → Option String)
    (parse : String → String → List BlogPost) (baseUrl siteUrl : String)
    (page fuel : Nat) (acc : List BlogPost) (fetched : List String)
    (hfail : fetchFn (pageUrl baseUrl page) = none) :
    crawlFrom fetchFn parse baseUrl siteUrl page (fuel + 1) acc fetched =
      ⟨acc, fetched ++ [pageUrl baseUrl page]⟩ ∧
    (fetchFn baseUrl = none →
      fetchSinglePage fetchFn parse baseUrl siteUrl = []) := by
  refine ⟨crawlFrom_fail fetchFn parse baseUrl siteUrl page fuel acc fetched hfail, ?_⟩
  intro h
  simp [fetchSinglePage, h]

theorem fetch_failure_witness :
    crawlFrom (fun _ => none) (fun _ _ => []) "b" "s" 1 100 [keptPost] [] =
      ⟨[keptPost], ["b"]⟩ ∧
    fetchSinglePage (fun _ => none) (fun _ _ => []) "b" "s" = [] := by
  have h := fetch_failure_absorption (fun _ => none) (fun _ _ => []) "b" "s"
    1 99 [keptPost] [] rfl
  exact ⟨h.1, h.2 rfl⟩

/-- C7: card-parser scenario.  On the example fragment — one article whose
anchor targets `/blog/example` with title paragraph "Example Title",
description paragraph "Example description", category label "News · " and
a time element dated 2025-11-13 — the Cursor parser returns exactly one
post with the expected five fields. -/
theorem cardParser_scenario :
    parseCursorBlog exampleFragment "https://cursor.com" =
      [⟨"Example Title", "https://cursor.com/blog/example",
        "Example description", "News", "2025-11-13", "Cursor"⟩] := by
  decide

/-- C8 counterexample: the Claude Blog parser produces a Post from an
anchor whose href is exactly `/blog/page/2` — its exclusion list covers
only `/blog` and `/blog/`, so pagination-navigation anchors are not
excluded there. -/
theorem navigation_exclusion_counterexample :
    parseClaudeBlog navigationDoc "https://claude.com" =
      [⟨"Older posts and archive pages", "https://claude.com/blog/page/2", "",
        "Blog", "", "Claude Blog"⟩] := by
  decide

/-- C8 (amended): navigation exclusion.  An anchor whose href is
`/blog/page/2` or `/blog/topic/ai` never produces a Post in the Cursor
parser (primary or fallback pass) or in the Anthropic Engineering or
Research parsers; the Claude Blog parser is the exception exhibited by
the counterexample. -/
theorem navigation_exclusion_amended (siteUrl : String) (el : Node)
    (acc : List BlogPost × List String)
    (h : attrOf el "href" = some "/blog/page/2" ∨
      attrOf el "href" = some "/blog/topic/ai") :
    mkCursorPost siteUrl el = none ∧
    mkCursorFallbackPost siteUrl el = none ∧
    engAnchorStep siteUrl acc el = acc ∧
    researchAnchorStep siteUrl acc el = acc := by
  have hcur : ((attrOf el "href").getD "" = "" ∨
      (attrOf el "href").getD "" = "/blog" ∨
      strStarts ((attrOf el "href").getD "") "/blog/topic" = true ∨
      strStarts ((attrOf el "href").getD "") "/blog/page" = true) := by
    rcases h with h | h <;> rw [h] <;> decide
  have heng : (strIncludes ((attrOf el "href").getD "") "/engineering/" = false ∧
      strIncludes ((attrOf el "href").getD "") "/news/" = false) := by
    rcases h with h | h <;> rw [h] <;> decide
  have hres : (strIncludes ((attrOf el "href").getD "") "/research/" = false ∧
      strIncludes ((attrOf el "href").getD "") "/news/" = false) := by
    rcases h with h | h <;> rw [h] <;> decide
  refine ⟨?_, ?_, ?_, ?_⟩
  · simp only [mkCursorPost]
    rw [if_pos hcur]
  · simp only [mkCursorFallbackPost]
    rw [if_pos hcur]
  · simp only [engAnchorStep]
    rw [if_pos heng]
  · simp only [researchAnchorStep]
    rw [if_pos hres]

theorem navigation_exclusion_witness :
    mkCursorPost "https://cursor.com" navigationAnchor = none ∧
    mkCursorFallbackPost "https://cursor.com" navigationAnchor = none ∧
    engAnchorStep "https://cursor.com" ([], []) navigationAnchor = ([], []) ∧
    researchAnchorStep "https://cursor.com" ([], []) navigationAnchor = ([], []) :=
  navigation_exclusion_amended "https://cursor.com" navigationAnchor ([], [])
    (Or.inl (by decide))

/-- C9 counterexample: in the Claude Blog parser, the line-classification
loop checks the title slot before the category allow-list, so the
category label "Enterprise AI" (longer than the 10-character threshold)
becomes the post's title, and the category stays at its default. -/
theorem heuristic_classification_counterexample :
    parseClaudeBlog categoryFirstDoc "https://claude.com" =
      [⟨"Enterprise AI", "https://claude.com/blog/x", "", "Blog", "",
        "Claude Blog"⟩] ∧
    "Enterprise AI" ∈ claudeCategories := by
  decide

/-- Lines outside the allow-list never touch the category slot of the
Claude loop. -/
theorem claudeFold_category_keep (lines : List String) :
    ∀ st : ScanSt, (∀ l ∈ lines, l ∉ claudeCategories) →
      (lines.foldl claudeStepLine st).category = st.category := by
  induction lines with
  | nil => intro st _; rfl
  | cons l ls ih =>
    intro st h
    rw [List.foldl_cons]
    have hstep : (claudeStepLine st l).category = st.category := by
      unfold claudeStepLine
      split_ifs with h1 h2 h3
      · rfl
      · rfl
      · exact absurd h3 (h l (List.mem_cons_self l ls))
      · rfl
    rw [ih (claudeStepLine st l) (fun l' hl' => h l' (List.mem_cons_of_mem l hl')),
      hstep]

/-- The label "Agents" is always classified into the category slot of the
Claude loop: it is not a date line, it is too short (6 characters) for
the title branch, and it is allow-listed. -/
theorem claudeStepLine_agents (st : ScanSt) :
    claudeStepLine st "Agents" = { st with category := "Agents" } := by
  unfold claudeStepLine
  rw [if_neg (by decide), if_neg (fun hc => absurd hc.2.1 (by decide)),
    if_pos (by decide)]

/-- The label "Coding" is always classified into the category slot of the
Claude loop. -/
theorem claudeStepLine_coding (st : ScanSt) :
    claudeStepLine st "Coding" = { st with category := "Coding" } := by
  unfold claudeStepLine
  rw [if_neg (by decide), if_neg (fun hc => absurd hc.2.1 (by decide)),
    if_pos (by decide)]

/-- When the last allow-listed line is one of the short labels, it is the
Claude loop's final category: the short label takes the category branch
unconditionally, and no later line updates the slot. -/
theorem claudeFold_category_short (lines : List String) :
    ∀ (st : ScanSt) (c : String), (c = "Agents" ∨ c = "Coding") →
      (lines.filter (fun l => claudeCategories.contains l)).getLast? = some c →
      (lines.foldl claudeStepLine st).category = c := by
  induction lines with
  | nil => intro st c _ hlast; simp at hlast
  | cons l ls ih =>
    intro st c hc hlast
    rw [List.foldl_cons]
    rw [List.filter_cons] at hlast
    by_cases hl : claudeCategories.contains l = true
    · rw [if_pos hl] at hlast
      cases hnil : ls.filter (fun l => claudeCategories.contains l) with
      | nil =>
        rw [hnil] at hlast
        have hlc : l = c := by simpa using hlast
        have hstep : claudeStepLine st l = { st with category := l } := by
          rcases hc with hc | hc
          · rw [hlc, hc]
            exact claudeStepLine_agents st
          · rw [hlc, hc]
            exact claudeStepLine_coding st
        have hnolab : ∀ l' ∈ ls, l' ∉ claudeCategories := by
          intro l' hl' hmem
          have hin : l' ∈ ls.filter (fun l => claudeCategories.contains l) :=
            List.mem_filter.mpr ⟨hl', List.elem_eq_true_of_mem hmem⟩
          rw [hnil] at hin
          simp at hin
        rw [hstep, claudeFold_category_keep ls _ hnolab]
        exact hlc
      | cons d ds =>
        rw [hnil, List.getLast?_cons_cons] at hlast
        exact ih (claudeStepLine st l) c hc (by rw [hnil]; exact hlast)
    · rw [if_neg hl] at hlast
      exact ih (claudeStepLine st l) c hc hlast

/-- C9 (amended): heuristic line classification.  In the Anthropic
Research parser a line matching the category allow-list is classified as
the category (the final category is the last such line) and never becomes
the title; the title is the first line that is not a date line, not an
allow-listed category, and exceeds the 15-character threshold.  In the
Claude Blog parser the same holds exactly for the short labels "Agents"
and "Coding" (at most 10 characters): such a line is always classified
into the category slot — stated per line and, when it is the last
allow-listed line, as the final category — and never becomes the title;
the counterexample shows a longer label becoming the title there. -/
theorem heuristic_classification_amended (lines : List String) :
    (researchScan lines).title = ((lines.find? researchTitleCand).getD "") ∧
    (∀ c ∈ researchCategories, (researchScan lines).title ≠ c) ∧
    ((researchScan lines).category =
      ((lines.filter (fun l => researchCategories.contains l)).getLast?).getD
        "Research") ∧
    (claudeScan lines).title ≠ "Agents" ∧
    (claudeScan lines).title ≠ "Coding" ∧
    (∀ st : ScanSt, claudeStepLine st "Agents" = { st with category := "Agents" } ∧
      claudeStepLine st "Coding" = { st with category := "Coding" }) ∧
    (∀ c, (c = "Agents" ∨ c = "Coding") →
      (lines.filter (fun l => claudeCategories.contains l)).getLast? = some c →
      (claudeScan lines).category = c) := by
  have ht : (researchScan lines).title = ((lines.find? researchTitleCand).getD "") :=
    researchFold_title lines ⟨"", "", "Research"⟩ rfl
  have ht2 : (claudeScan lines).title = ((lines.find? claudeTitleCand).getD "") :=
    claudeFold_title lines ⟨"", "", "Blog"⟩ rfl
  refine ⟨ht, ?_, researchFold_category lines ⟨"", "", "Research"⟩, ?_, ?_,
    fun st => ⟨claudeStepLine_agents st, claudeStepLine_coding st⟩,
    fun c hc hlast => claudeFold_category_short lines ⟨"", "", "Blog"⟩ c hc hlast⟩
  · intro c hc
    rw [ht]
    cases hf : lines.find? researchTitleCand with
    | none =>
      simp only [Option.getD_none]
      intro he
      rw [← he] at hc
      exact absurd hc (by decide)
    | some l =>
      simp only [Option.getD_some]
      have hcand := List.find?_some hf
      simp only [researchTitleCand] at hcand
      obtain ⟨_, hcat, _⟩ := of_decide_eq_true hcand
      intro he
      rw [he] at hcat
      exact hcat hc
  · rw [ht2]
    cases hf : lines.find? claudeTitleCand with
    | none => simp only [Option.getD_none]; decide
    | some l =>
      simp only [Option.getD_some]
      have hcand := List.find?_some hf
      simp only [claudeTitleCand] at hcand
      obtain ⟨_, hlen, _⟩ := of_decide_eq_true hcand
      intro he
      rw [he] at hlen
      exact absurd hlen (by decide)
  · rw [ht2]
    cases hf : lines.find? claudeTitleCand with
    | none => simp only [Option.getD_none]; decide
    | some l =>
      simp only [Option.getD_some]
      have hcand := List.find?_some hf
      simp only [claudeTitleCand] at hcand
      obtain ⟨_, hlen, _⟩ := of_decide_eq_true hcand
      intro he
      rw [he] at hlen
      exact absurd hlen (by decide)

def researchExampleLines : List String :=
  ["Interpretability", "A sufficiently long research title"]

def claudeExampleLines : List String :=
  ["Coding", "Another sufficiently long title"]

theorem heuristic_classification_witness :
    (researchScan researchExampleLines).title =
      ((researchExampleLines.find? researchTitleCand).getD "") ∧
    "Interpretability" ∈ researchCategories ∧
    (researchScan researchExampleLines).title ≠ "Interpretability" ∧
    (claudeExampleLines.filter (fun l => claudeCategories.contains l)).getLast? =
      some "Coding" ∧
    (claudeScan claudeExampleLines).category = "Coding" :=
  ⟨(heuristic_classification_amended researchExampleLines).1, by decide,
   (heuristic_classification_amended researchExampleLines).2.1
     "Interpretability" (by decide),
   by decide,
   (heuristic_classification_amended claudeExampleLines).2.2.2.2.2.2
     "Coding" (Or.inr rfl) (by decide)⟩

/-- C10 counterexample: the fallback text-splitting parser keeps interior
whitespace runs in the title — the post produced for a card whose first
text line is `"Big  title"` carries that double space, so its title is
not whitespace-normalized. -/
theorem post_validity_counterexample :
    parseCursorBlog doubleSpaceDoc "https://cursor.com" =
      [⟨"Big  title", "https://cursor.com/blog/x", "", "News",
        "Nov 13, 2025", "Cursor"⟩] ∧
    isNormalizedStr "Big  title" = false := by
  decide

/-- C10 (amended): post validity invariant.  Every Post any source parser
emits has a non-empty title and a non-empty link (candidates missing
either are discarded); titles produced by the card-based primary pass and
by the three heuristic parsers are whitespace-normalized.  Fallback-pass
titles are only per-line trimmed, as the counterexample shows. -/
theorem post_validity_amended (doc : List Node) (siteUrl : String) :
    (∀ p ∈ parseCursorBlog doc siteUrl, p.title ≠ "" ∧ p.link ≠ "") ∧
    (∀ p ∈ cursorPrimaryPosts doc siteUrl, isNormalizedStr p.title = true) ∧
    (∀ p ∈ parseClaudeBlog doc siteUrl,
      p.title ≠ "" ∧ p.link ≠ "" ∧ isNormalizedStr p.title = true) ∧
    (∀ p ∈ parseAnthropicEngineering doc siteUrl,
      p.title ≠ "" ∧ p.link ≠ "" ∧ isNormalizedStr p.title = true) ∧
    (∀ p ∈ parseAnthropicResearch doc siteUrl,
      p.title ≠ "" ∧ p.link ≠ "" ∧ isNormalizedStr p.title = true) := by
  refine ⟨?_, ?_, ?_, ?_, ?_⟩
  · intro p hp
    simp only [parseCursorBlog] at hp
    split_ifs at hp with he
    · obtain ⟨el, _, hel⟩ := List.mem_filterMap.mp hp
      exact mkCursorFallbackPost_mem siteUrl el p hel
    · obtain ⟨el, _, hel⟩ := List.mem_filterMap.mp hp
      have h := mkCursorPost_mem siteUrl el p hel
      exact ⟨h.1, h.2.1⟩
  · intro p hp
    obtain ⟨el, _, hel⟩ := List.mem_filterMap.mp hp
    exact (mkCursorPost_mem siteUrl el p hel).2.2
  · intro p hp
    rcases foldl_step_mem (claudeAnchorStep siteUrl) _ (claudeAnchorStep_mem siteUrl)
      (claudeAnchors doc) ([], []) p hp with h | h
    · simp at h
    · exact h
  · intro p hp
    rcases foldl_step_mem (engAnchorStep siteUrl) _ (engAnchorStep_mem siteUrl)
      (allAnchors doc) ([], []) p hp with h | h
    · simp at h
    · exact h
  · intro p hp
    rcases foldl_step_mem (researchAnchorStep siteUrl) _ (researchAnchorStep_mem siteUrl)
      (allAnchors doc) ([], []) p hp with h | h
    · simp at h
    · exact h

theorem post_validity_witness :
    (⟨"A Claude post title example", "https://claude.com/blog/w", "", "Blog",
      "", "Claude Blog"⟩ : BlogPost) ∈
        parseClaudeBlog plainCardDoc "https://claude.com" ∧
    (⟨"A Claude post title example", "https://claude.com/blog/w", "", "Blog",
      "", "Claude Blog"⟩ : BlogPost).title ≠ "" :=
  ⟨by decide,
   ((post_validity_amended plainCardDoc "https://claude.com").2.2.1 _ (by decide)).1⟩
